import Mathlib

/-!
Verification of the MGnify BIOM harvester (`mgnify2.py`).

The Python source is shallowly embedded in Lean:

* the contents of a class directory are passed explicitly as a list of
  filenames (`os.listdir`), a missing directory being the empty list;
* network and external collaborators (HTTP download, the `biom` library,
  TSV→BIOM conversion) are passed as explicit oracle functions;
* a Python exception propagating out of a function is modelled with
  `Except`; a caught exception is part of the ordinary return value;
* Python `set`/`dict` state fields are modelled as lists used only
  through membership / association lookup.
-/

namespace Mgnify

/-- Characters matched by the `[a-z_]` class of `IDX_RE` under
`re.IGNORECASE` (mgnify2.py line 31): ASCII letters and the underscore. -/
def isClsChar (c : Char) : Bool := c.isAlpha || c = '_'

/-- Decimal digits of a natural number, most significant first, exactly as
Python `str(int)` renders the non-negative indices interpolated into output
filenames (`f"{class_name}_{next_idx}.biom"`). -/
def natDigits (n : Nat) : List Char :=
  if _h : n < 10 then [Nat.digitChar n]
  else natDigits (n / 10) ++ [Nat.digitChar (n % 10)]
decreasing_by exact Nat.div_lt_self (by omega) (by omega)

/-- Value of a digit string, as computed by Python `int` on the `idx`
group of `IDX_RE` (the group is all ASCII digits, so `int` succeeds). -/
def digitsToNat (ds : List Char) : Nat :=
  ds.foldl (fun n c => 10 * n + (c.toNat - 48)) 0

/-- Matching of `IDX_RE = ^(?P<cls>[a-z_]+)_(?P<idx>\d+)\.biom$` (with
`re.IGNORECASE`) against the REVERSED character list of a filename.
Returns the `cls` and `idx` groups (in original order) on success.
The parse is unique: the `idx` group is the maximal run of trailing
digits of the stem, since `[a-z_]` matches no digit. -/
def parseRev : List Char → Option (List Char × List Char)
  | c1 :: c2 :: c3 :: c4 :: c5 :: rest =>
    if c1.toLower = 'm' ∧ c2.toLower = 'o' ∧ c3.toLower = 'i' ∧ c4.toLower = 'b' ∧ c5 = '.' then
      let ds := rest.takeWhile Char.isDigit
      if ds = [] then none
      else
        match rest.dropWhile Char.isDigit with
        | '_' :: clsrev =>
          if clsrev ≠ [] ∧ clsrev.all isClsChar then some (clsrev.reverse, ds.reverse)
          else none
        | _ => none
    else none
  | _ => none

/-- `IDX_RE.match(fname)`, returning the two groups. -/
def idx_match (fname : String) : Option (List Char × List Char) :=
  parseRev fname.data.reverse

/-- ASCII lowercasing of a character list, modelling Python `str.lower()`
on the ASCII strings involved here. -/
def lowerList (l : List Char) : List Char := l.map Char.toLower

/-- One iteration of the loop body of `next_index_for_class`
(mgnify2.py lines 62-69): the index contributed by filename `fname` for
class `class_name`, or `none` when the filename does not match `IDX_RE`
with a `cls` group equal (case-insensitively) to `class_name`. -/
def idx_of_file (class_name : String) (fname : String) : Option Nat :=
  match idx_match fname with
  | some (cls, ds) =>
    if lowerList cls = lowerList class_name.data then some (digitsToNat ds) else none
  | none => none

/-- The running `max_idx` accumulator of `next_index_for_class`. -/
def idxFold (class_name : String) (files : List String) : Nat :=
  files.foldl (fun m f => max m ((idx_of_file class_name f).getD 0)) 0

/-- `next_index_for_class(class_dir, class_name)` (mgnify2.py lines 59-70):
scans the directory listing and returns `max_idx + 1`.  A missing
directory is modelled by `files = []` (both return 1). -/
def next_index_for_class (files : List String) (class_name : String) : Nat :=
  idxFold class_name files + 1

/-- The resume prelude of `harvest_class` (mgnify2.py lines 246-248):
`next_idx`, `saved = next_idx - 1` and `remain = max(0, n_target - saved)`
(the `max 0` is implicit in `Nat` subtraction).
Returned as `(saved, next_idx, remain)`. -/
def harvest_resume (files : List String) (class_name : String) (n_target : Nat) :
    Nat × Nat × Nat :=
  let next_idx := next_index_for_class files class_name
  let saved := next_idx - 1
  (saved, next_idx, n_target - saved)

/-- Control skeleton of `harvest_class` around the resume check
(mgnify2.py lines 246-252): everything before the check (makedirs,
state loading, signature backfill, the directory scan) performs no
network I/O; when `remain == 0` the function returns `saved` at once,
never building `page_url` nor entering the paginated walk.  The whole
network phase (lines 254-375) is abstracted as an oracle taking
`saved` and `next_idx` and returning the final saved count paired with
the number of network requests it performed.  `harvest_class` returns
`(saved count returned, network requests performed)`. -/
def harvest_class (files : List String) (class_name : String) (n_target : Nat)
    (networkPhase : Nat → Nat → Nat × Nat) : Nat × Nat :=
  let r := harvest_resume files class_name n_target
  if r.2.2 = 0 then (r.1, 0) else networkPhase r.1 r.2.1

/-- Outcome of one attempt of `get_json`: a 2xx response with parseable
JSON body, an HTTP 429, or any other failure (transport error, non-2xx
status via `raise_for_status`, or a JSON decode error) — all of the
latter are caught by the single `except Exception` clause. -/
inductive Resp (α : Type) where
  | ok (v : α)
  | code429
  | err
deriving DecidableEq

/-- The retry loop of `get_json` (mgnify2.py lines 72-82).  `a` is the
current value of the loop variable, `fuel` the number of remaining
iterations (`retries - a`), and `sleeps` the accumulated trace of
`time.sleep` durations in seconds.  A 429 sleeps `3 + a` and retries on
the same counter; any other failure sleeps `1 + a` and retries, except
on the last iteration (`a == retries - 1`) where it re-raises.  When the
loop ends without returning (possible only through the 429 `continue` on
the last iteration, or `retries = 0`) the function falls off the end and
returns Python `None`, modelled as `Except.ok none`. -/
def get_json_aux {α : Type} (attempts : Nat → Resp α) :
    Nat → Nat → List Nat → Except Unit (Option α) × List Nat
  | _, 0, sleeps => (Except.ok none, sleeps)
  | a, fuel + 1, sleeps =>
    match attempts a with
    | Resp.ok v => (Except.ok (some v), sleeps)
    | Resp.code429 => get_json_aux attempts (a + 1) fuel (sleeps ++ [3 + a])
    | Resp.err =>
      if fuel = 0 then (Except.error (), sleeps)
      else get_json_aux attempts (a + 1) fuel (sleeps ++ [1 + a])

/-- `get_json(url, retries=retries)`: the attempt oracle gives the outcome
of each attempt for the fixed URL.  Returns the result (raised exception,
JSON value, or `None`) together with the sleep trace. -/
def get_json {α : Type} (attempts : Nat → Resp α) (retries : Nat) :
    Except Unit (Option α) × List Nat :=
  get_json_aux attempts 0 retries []

/-- The dense table loaded by `biom.load_table(path).to_dataframe(dense=True)`
with byte labels already decoded to text (the `dec` mapping of
`compute_biom_signature`): row (observation) labels, column (sample)
labels, and the integer cell values after the `np.rint(...).astype("int64")`
coercion, addressed by label. -/
structure BiomTable where
  rows : List String
  cols : List String
  val : String → String → Int

/-- Python `sorted` / pandas `sort_index` on decoded text labels:
ascending lexicographic order on strings. -/
def sortStrings (l : List String) : List String := List.insertionSort (· ≤ ·) l

/-- Concatenation of the byte lists produced for each element, in list
order (the successive `h.update` calls of `compute_biom_signature`). -/
def catMap {α : Type} (f : α → List Nat) : List α → List Nat
  | [] => []
  | a :: l => f a ++ catMap f l

/-- UTF-8 encoding of one character (`str.encode("utf-8")`), as bytes. -/
def charUTF8 (c : Char) : List Nat :=
  let n := c.toNat
  if n < 128 then [n]
  else if n < 2048 then [192 + n / 64, 128 + n % 64]
  else if n < 65536 then [224 + n / 4096, 128 + n / 64 % 64, 128 + n % 64]
  else [240 + n / 262144, 128 + n / 4096 % 64, 128 + n / 64 % 64, 128 + n % 64]

/-- UTF-8 bytes of a string. -/
def strBytes (s : String) : List Nat := catMap charUTF8 s.data

/-- The 8 little-endian bytes of a value of numpy dtype `int64`
(`arr.tobytes(order="C")` is little-endian on the supported platforms);
two's complement is the value modulo `2^64`. -/
def int64Bytes (z : Int) : List Nat :=
  (List.range 8).map (fun i => (z % (2 ^ 64 : Int)).toNat / 256 ^ i % 256)

/-- The byte stream fed to `hashlib.sha256` by `compute_biom_signature`
(mgnify2.py lines 132-180): the row labels in sorted order, each
followed by a NUL byte, a `\x7c` separator, the column labels in sorted
order each followed by a NUL byte, another separator, then the row-major
bytes of the int64 matrix in sorted row/column order.  The returned
hexadecimal digest is `sha256` of exactly this stream; since `sha256` is
a deterministic function, equality of two streams entails equality of
the digests the Python function returns. -/
def compute_biom_signature (t : BiomTable) : List Nat :=
  let rows := sortStrings t.rows
  let cols := sortStrings t.cols
  catMap (fun r => strBytes r ++ [0]) rows ++ [124] ++
    catMap (fun c => strBytes c ++ [0]) cols ++ [124] ++
    catMap (fun r => catMap (fun c => int64Bytes (t.val r c)) cols) rows

/-- One entry of the downloads listing as read by `find_biom_or_tsv`:
`attrs.get("alias") or ""` (before `.strip()`) and
`(item.get("links") or {}).get("self")`. -/
structure DlItem where
  alias_attr : String
  self_link : Option String

/-- Python `str.strip()` on the character list: drop leading and
trailing whitespace. -/
def trimChars (l : List Char) : List Char :=
  ((l.dropWhile Char.isWhitespace).reverse.dropWhile Char.isWhitespace).reverse

/-- Falsiness of the `self` link value: absent (`None`) or empty. -/
def linkFalsy : Option String → Bool
  | none => true
  | some s => s == ""

/-- The stripped alias of an item. -/
def itemAlias (it : DlItem) : List Char := trimChars it.alias_attr.data

/-- `alias.lower()` for an item. -/
def itemLow (it : DlItem) : List Char := lowerList (itemAlias it)

/-- The `if not alias or not link: continue` guard. -/
def itemSkipped (it : DlItem) : Bool :=
  decide (itemAlias it = []) || linkFalsy it.self_link

/-- `low.endswith(".biom")` on a (lowered) character list. -/
def endsBiom (l : List Char) : Bool := decide (l.reverse.take 5 = ['m', 'o', 'i', 'b', '.'])

/-- `low.endswith(".tsv")` on a (lowered) character list. -/
def endsTsv (l : List Char) : Bool := decide (l.reverse.take 4 = ['v', 's', 't', '.'])

/-- Python `"otu" in low`: substring occurrence. -/
def hasOtu : List Char → Bool
  | 'o' :: 't' :: 'u' :: _ => true
  | _ :: rest => hasOtu rest
  | [] => false

/-- An item that sets `biom_url` in `find_biom_or_tsv`: not skipped, and
its lowered stripped alias ends with `".biom"`. -/
def qualifiesBiom (it : DlItem) : Bool := !itemSkipped it && endsBiom (itemLow it)

/-- An item that can set `tsv_url`: not skipped, lowered alias contains
`"otu"` and ends with `".tsv"`. -/
def qualifiesTsv (it : DlItem) : Bool :=
  !itemSkipped it && (hasOtu (itemLow it) && endsTsv (itemLow it))

/-- The scanning loop of `find_biom_or_tsv` (mgnify2.py lines 185-196)
with the `(tsv_url, tsv_alias)` accumulator made explicit; finding a
`.biom` item returns at once (`break`). -/
def find_loop : List DlItem → Option String × Option String →
    Option String × Option String × Option String × Option String
  | [], acc => (none, none, acc.1, acc.2)
  | it :: rest, acc =>
    if itemSkipped it then find_loop rest acc
    else if endsBiom (itemLow it) then
      (it.self_link, some (String.mk (itemAlias it)), acc.1, acc.2)
    else if (hasOtu (itemLow it) && endsTsv (itemLow it)) && acc.1.isNone then
      find_loop rest (it.self_link, some (String.mk (itemAlias it)))
    else find_loop rest acc

/-- `find_biom_or_tsv(downloads_json)` (mgnify2.py lines 183-197),
returning `(biom_url, biom_alias, tsv_url, tsv_alias)`. -/
def find_biom_or_tsv (items : List DlItem) :
    Option String × Option String × Option String × Option String :=
  find_loop items (none, none)

/-- Persistent per-class harvest state (`.state.json`): seen download
links, the legacy `hash_to_name` map (kept but unused), and the
content-signature map.  The Python `set`/`dict` are modelled as lists
used through membership and association lookup. -/
structure HState where
  seen_links : List String
  hash_to_name : List (String × String)
  biom_sig_to_name : List (String × String)
deriving DecidableEq

/-- The state `load_state` falls back to: empty set and empty maps. -/
def emptyState : HState := ⟨[], [], []⟩

/-- The parsed JSON sidecar: each field may be absent or null
(`data.get(...) or` default). -/
structure RawState where
  seen_links : Option (List String)
  hash_to_name : Option (List (String × String))
  biom_sig_to_name : Option (List (String × String))

/-- `load_state(class_dir)` (mgnify2.py lines 36-47).  The argument is
`none` when the sidecar file does not exist; `some (Except.error ())`
when reading, JSON-decoding or re-shaping its contents raises (all
exceptions are swallowed by the `except Exception: pass`); and
`some (Except.ok d)` when parsing succeeds with fields `d`.  In every
failure case the empty state is returned; the function never raises. -/
def load_state : Option (Except Unit RawState) → HState
  | some (Except.ok d) =>
    ⟨d.seen_links.getD [], d.hash_to_name.getD [], d.biom_sig_to_name.getD []⟩
  | some (Except.error _) => emptyState
  | none => emptyState

/-- `state["seen_links"].add(link)`: set insertion. -/
def addSeen (l : List String) (x : String) : List String :=
  if x ∈ l then l else x :: l

/-- Association lookup in a signature map (`sig in state[...]` and
`state[...][sig]`). -/
def lookupName : List (String × String) → String → Option String
  | [], _ => none
  | (a, b) :: m, k => if a = k then some b else lookupName m k

/-- Python `list.startswith`-style prefix test on character lists. -/
def startsWithChars : List Char → List Char → Bool
  | _, [] => true
  | [], _ :: _ => false
  | c :: s, p :: ps => (c == p) && startsWithChars s ps

/-- The filename filter of the signature backfill loop (mgnify2.py lines
238-239): `fname.lower().endswith(".biom")` and
`fname.startswith(class_name + "_")` (this prefix test is
case-sensitive). -/
def matchesBackfill (class_name : String) (fname : String) : Bool :=
  endsBiom (lowerList fname.data) &&
    startsWithChars fname.data (class_name.data ++ ['_'])

/-- The signature backfill of `harvest_class` (mgnify2.py lines 236-244):
when the loaded state has no recorded signatures, compute the signature
of every existing output file of the class, in sorted filename order,
and `setdefault` it into the map.  `sig` is the
`compute_biom_signature` collaborator on file paths (`none` when the
`biom` library is unavailable or for this file no signature results). -/
def backfill (class_name : String) (files : List String)
    (sig : String → Option String) (st : HState) : HState :=
  if st.biom_sig_to_name = [] then
    let step := fun (m : List (String × String)) (f : String) =>
      match sig f with
      | some s => if (lookupName m s).isSome then m else (s, f) :: m
      | none => m
    let m1 := ((sortStrings files).filter (fun f => matchesBackfill class_name f)).foldl
      step st.biom_sig_to_name
    { st with biom_sig_to_name := m1 }
  else st

/-- How the per-candidate body of `harvest_class` ended. -/
inductive Outcome where
  | noCandidate
  | skippedSeen
  | downloadFailed
  | duplicate
  | committed
  | convFailed
deriving DecidableEq

/-- Result of processing one candidate: the updated state, the committed
output files on disk, the updated `saved` and `next_idx` counters, and
the outcome. -/
structure StepResult where
  state : HState
  disk : List String
  saved : Nat
  next_idx : Nat
  outcome : Outcome
deriving DecidableEq

/-- The output filename `f"{class_name}_{next_idx}.biom"`. -/
def out_name_for (class_name : String) (idx : Nat) : String :=
  class_name ++ "_" ++ String.mk (natDigits idx) ++ ".biom"

/-- The commit tail shared by both candidate paths (mgnify2.py lines
324-334 and 361-368): keep the file under the next output name, record
the signature (when one was computed) and the link, bump `saved` and
`next_idx`. -/
def commitStep (class_name : String) (link : String) (sigOpt : Option String)
    (st : HState) (disk : List String) (saved next_idx : Nat) : StepResult :=
  let out_name := out_name_for class_name next_idx
  { state :=
      { st with
        seen_links := addSeen st.seen_links link
        biom_sig_to_name :=
          match sigOpt with
          | some s => (s, out_name) :: st.biom_sig_to_name
          | none => st.biom_sig_to_name }
    disk := disk ++ [out_name]
    saved := saved + 1
    next_idx := next_idx + 1
    outcome := Outcome.committed }

/-- The per-candidate body of `harvest_class` (mgnify2.py lines 293-372),
from `find_biom_or_tsv`'s result onward.  Oracles: `download u` is the
content fetched from `u` (`none` = `download_file_atomic` returned
`False`, leaving no file); `convert` is `convert_tsv_to_biom`
(`Except.error` = the CLI `subprocess.check_call` raised, which
propagates out of `harvest_class`; `Express.ok none` stands for the
library fallback returning `False`; `Except.ok (some b)` = converted
content `b`); `sig` is `compute_biom_signature` (`none` = `biom`
unavailable).  `disk` is the list of committed output files. -/
def processCandidate {β : Type} (class_name : String)
    (download : String → Option β) (convert : β → Except Unit (Option β))
    (sig : β → Option String)
    (st : HState) (disk : List String) (saved next_idx : Nat)
    (biom_url tsv_url : Option String) : Except Unit StepResult :=
  match biom_url, tsv_url with
  | none, none => Except.ok ⟨st, disk, saved, next_idx, Outcome.noCandidate⟩
  | some u, _ =>
    -- candidate_link = biom_url or tsv_url = u; direct BIOM path
    if u ∈ st.seen_links then
      Except.ok ⟨st, disk, saved, next_idx, Outcome.skippedSeen⟩
    else
      match download u with
      | none =>
        Except.ok ⟨{ st with seen_links := addSeen st.seen_links u },
          disk, saved, next_idx, Outcome.downloadFailed⟩
      | some content =>
        match sig content with
        | some s =>
          if (lookupName st.biom_sig_to_name s).isSome then
            Except.ok ⟨{ st with seen_links := addSeen st.seen_links u },
              disk, saved, next_idx, Outcome.duplicate⟩
          else Except.ok (commitStep class_name u (some s) st disk saved next_idx)
        | none => Except.ok (commitStep class_name u none st disk saved next_idx)
  | none, some u =>
    -- candidate_link = tsv_url = u; TSV → BIOM path
    if u ∈ st.seen_links then
      Except.ok ⟨st, disk, saved, next_idx, Outcome.skippedSeen⟩
    else
      match download u with
      | none =>
        Except.ok ⟨{ st with seen_links := addSeen st.seen_links u },
          disk, saved, next_idx, Outcome.downloadFailed⟩
      | some tsvContent =>
        match convert tsvContent with
        | Except.error e => Except.error e
        | Except.ok none =>
          Except.ok ⟨st, disk, saved, next_idx, Outcome.convFailed⟩
        | Except.ok (some b) =>
          match sig b with
          | some s =>
            if (lookupName st.biom_sig_to_name s).isSome then
              Except.ok ⟨{ st with seen_links := addSeen st.seen_links u },
                disk, saved, next_idx, Outcome.duplicate⟩
            else Except.ok (commitStep class_name u (some s) st disk saved next_idx)
          | none => Except.ok (commitStep class_name u none st disk saved next_idx)

/-! ### Helper lemmas -/

theorem string_data_append (a b : String) : (a ++ b).data = a.data ++ b.data := rfl

theorem digitChar_isDigit {d : Nat} (h : d < 10) : (Nat.digitChar d).isDigit = true := by
  interval_cases d <;> decide

theorem digitChar_toNat {d : Nat} (h : d < 10) : (Nat.digitChar d).toNat = 48 + d := by
  interval_cases d <;> decide

theorem natDigits_ne_nil (n : Nat) : natDigits n ≠ [] := by
  rw [natDigits]
  split <;> simp

theorem natDigits_all_digit (n : Nat) : ∀ c ∈ natDigits n, c.isDigit = true := by
  induction n using Nat.strong_induction_on with
  | _ n ih =>
    rw [natDigits]
    split
    · next h => intro c hc; simp only [List.mem_singleton] at hc; subst hc; exact digitChar_isDigit h
    · next h =>
      intro c hc
      simp only [List.mem_append, List.mem_singleton] at hc
      rcases hc with hc | hc
      · exact ih (n / 10) (Nat.div_lt_self (by omega) (by omega)) c hc
      · subst hc; exact digitChar_isDigit (Nat.mod_lt _ (by omega))

theorem digitsToNat_append_single (l : List Char) (c : Char) :
    digitsToNat (l ++ [c]) = 10 * digitsToNat l + (c.toNat - 48) := by
  simp [digitsToNat, List.foldl_append]

theorem digitsToNat_natDigits (n : Nat) : digitsToNat (natDigits n) = n := by
  induction n using Nat.strong_induction_on with
  | _ n ih =>
    rw [natDigits]
    split
    · next h =>
      simp [digitsToNat, digitChar_toNat h]
    · next h =>
      rw [digitsToNat_append_single, ih (n / 10) (Nat.div_lt_self (by omega) (by omega)),
        digitChar_toNat (Nat.mod_lt _ (by omega))]
      omega

theorem takeWhile_append_all {α : Type} (p : α → Bool) (l1 l2 : List α)
    (h : ∀ c ∈ l1, p c = true) :
    (l1 ++ l2).takeWhile p = l1 ++ l2.takeWhile p := by
  induction l1 with
  | nil => simp
  | cons a l ih =>
    simp only [List.cons_append, List.takeWhile_cons, h a (by simp)]
    simp [ih (fun c hc => h c (by simp [hc]))]

theorem dropWhile_append_all {α : Type} (p : α → Bool) (l1 l2 : List α)
    (h : ∀ c ∈ l1, p c = true) :
    (l1 ++ l2).dropWhile p = l2.dropWhile p := by
  induction l1 with
  | nil => simp
  | cons a l ih =>
    simp only [List.cons_append, List.dropWhile_cons, h a (by simp)]
    simp [ih (fun c hc => h c (by simp [hc]))]

theorem parseRev_shape (clsL ds : List Char) (h1 : clsL ≠ [])
    (h2 : ∀ c ∈ clsL, isClsChar c = true) (h3 : ds ≠ [])
    (h4 : ∀ c ∈ ds, c.isDigit = true) :
    parseRev ('m' :: 'o' :: 'i' :: 'b' :: '.' :: (ds.reverse ++ '_' :: clsL.reverse))
      = some (clsL, ds) := by
  have hdig : ∀ c ∈ ds.reverse, Char.isDigit c = true := by
    intro c hc; exact h4 c (List.mem_reverse.mp hc)
  simp only [parseRev]
  rw [if_pos (⟨by decide, by decide, by decide, by decide, trivial⟩ :
    'm'.toLower = 'm' ∧ 'o'.toLower = 'o' ∧ 'i'.toLower = 'i' ∧ 'b'.toLower = 'b' ∧ True)]
  rw [takeWhile_append_all _ _ _ hdig, dropWhile_append_all _ _ _ hdig]
  have ht : List.takeWhile Char.isDigit ('_' :: clsL.reverse) = [] := by
    simp [List.takeWhile_cons]
  have hd : List.dropWhile Char.isDigit ('_' :: clsL.reverse) = '_' :: clsL.reverse := by
    simp [List.dropWhile_cons]
  rw [ht, hd]
  simp only [List.append_nil]
  rw [if_neg (by simp [h3])]
  rw [if_pos ⟨by simp [h1], by rw [List.all_eq_true]; intro c hc; exact h2 c (List.mem_reverse.mp hc)⟩]
  simp

theorem idx_of_file_out_name (cls : String) (h1 : cls.data ≠ [])
    (h2 : ∀ c ∈ cls.data, isClsChar c = true) (n : Nat) :
    idx_of_file cls (out_name_for cls n) = some n := by
  have hdata : (out_name_for cls n).data
      = cls.data ++ ['_'] ++ natDigits n ++ ['.', 'b', 'i', 'o', 'm'] := rfl
  have hrev : (out_name_for cls n).data.reverse
      = 'm' :: 'o' :: 'i' :: 'b' :: '.' :: ((natDigits n).reverse ++ '_' :: cls.data.reverse) := by
    rw [hdata]
    simp [List.reverse_append]
  unfold idx_of_file idx_match
  rw [hrev, parseRev_shape cls.data (natDigits n) h1 h2 (natDigits_ne_nil n) (natDigits_all_digit n)]
  simp [digitsToNat_natDigits]

theorem uint_65 : ((65 : UInt32)).toBitVec.toNat = 65 := rfl

theorem uint_90 : ((90 : UInt32)).toBitVec.toNat = 90 := rfl

theorem uint_97 : ((97 : UInt32)).toBitVec.toNat = 97 := rfl

theorem uint_122 : ((122 : UInt32)).toBitVec.toNat = 122 := rfl

theorem char_isUpper_iff (c : Char) : c.isUpper = true ↔ 65 ≤ c.toNat ∧ c.toNat ≤ 90 := by
  simp [Char.isUpper, UInt32.le_def, BitVec.le_def, Char.toNat, UInt32.toNat, uint_65, uint_90]

theorem char_isLower_iff (c : Char) : c.isLower = true ↔ 97 ≤ c.toNat ∧ c.toNat ≤ 122 := by
  simp [Char.isLower, UInt32.le_def, BitVec.le_def, Char.toNat, UInt32.toNat, uint_97, uint_122]

theorem charOfNat_toNat {m : Nat} (h : m < 55296) : (Char.ofNat m).toNat = m := by
  rw [Char.ofNat, dif_pos (Or.inl h : Nat.isValidChar m)]
  rfl

theorem toLower_eq_of_not_alpha {c : Char} (h : c.isAlpha = false) : c.toLower = c := by
  have hu : ¬(65 ≤ c.toNat ∧ c.toNat ≤ 90) := by
    intro hc
    have : c.isUpper = true := (char_isUpper_iff c).mpr hc
    simp [Char.isAlpha, this] at h
  simp [Char.toLower, hu]

theorem toLower_alpha {c : Char} (h : c.isAlpha = true) : (Char.toLower c).isAlpha = true := by
  rcases Bool.or_eq_true_iff.mp (by simpa [Char.isAlpha] using h) with hu | hl
  · have hn := (char_isUpper_iff c).mp hu
    have hlt : c.toNat + 32 < 55296 := by omega
    simp only [Char.toLower, if_pos (by omega : 65 ≤ c.toNat ∧ c.toNat ≤ 90)]
    have : (Char.ofNat (c.toNat + 32)).isLower = true := by
      rw [char_isLower_iff, charOfNat_toNat hlt]
      omega
    simp [Char.isAlpha, this]
  · have hn := (char_isLower_iff c).mp hl
    have : ¬(65 ≤ c.toNat ∧ c.toNat ≤ 90) := by omega
    simp [Char.toLower, this, Char.isAlpha, hl]

theorem isClsChar_toLower {c : Char} (h : isClsChar c = true) : isClsChar c.toLower = true := by
  have h' : c.isAlpha = true ∨ c = '_' := by simpa [isClsChar] using h
  rcases h' with ha | he
  · simp [isClsChar, toLower_alpha ha]
  · subst he
    decide

theorem toLower_eq_of_not_clsChar {c : Char} (h : isClsChar c = false) : c.toLower = c := by
  have : c.isAlpha = false := by
    rcases hb : c.isAlpha with _ | _
    · rfl
    · simp [isClsChar, hb] at h
  exact toLower_eq_of_not_alpha this

theorem parseRev_cls_chars {l clsm ds : List Char} (h : parseRev l = some (clsm, ds)) :
    ∀ c ∈ clsm, isClsChar c = true := by
  match l with
  | [] => simp [parseRev] at h
  | [_] => simp [parseRev] at h
  | [_, _] => simp [parseRev] at h
  | [_, _, _] => simp [parseRev] at h
  | [_, _, _, _] => simp [parseRev] at h
  | c1 :: c2 :: c3 :: c4 :: c5 :: rest =>
    simp only [parseRev] at h
    split at h
    · split at h
      · simp at h
      · split at h
        · next clsrev heq =>
          split at h
          · next hcond =>
            simp only [Option.some_inj, Prod.mk.injEq] at h
            obtain ⟨h1, _⟩ := h
            subst h1
            intro c hc
            exact (List.all_eq_true.mp hcond.2) c (List.mem_reverse.mp hc)
          · simp at h
        · simp at h
    · simp at h

theorem idx_of_file_invalid {cls : String} {c : Char} (hc : c ∈ cls.data)
    (hbad : isClsChar c = false) (fname : String) :
    idx_of_file cls fname = none := by
  unfold idx_of_file
  cases hm : idx_match fname with
  | none => rfl
  | some p =>
    obtain ⟨clsm, ds⟩ := p
    have hchars := parseRev_cls_chars hm
    have hne : ¬(lowerList clsm = lowerList cls.data) := by
      intro heq
      have hmem : c.toLower ∈ lowerList clsm := by
        rw [heq]
        exact List.mem_map_of_mem Char.toLower hc
      obtain ⟨c', hc', hcl⟩ := List.mem_map.mp hmem
      have h2 : isClsChar c'.toLower = true := isClsChar_toLower (hchars c' hc')
      rw [hcl, toLower_eq_of_not_clsChar hbad] at h2
      rw [h2] at hbad
      exact Bool.true_eq_false.mp hbad
    simp [hne]

theorem idxFold_all_none {cls : String} {files : List String}
    (h : ∀ f ∈ files, idx_of_file cls f = none) : idxFold cls files = 0 := by
  unfold idxFold
  induction files with
  | nil => rfl
  | cons f l ih =>
    rw [List.foldl_cons, h f (by simp)]
    exact ih (fun g hg => h g (by simp [hg]))

theorem idxFold_init_le (cls : String) (l : List String) (a : Nat) :
    a ≤ l.foldl (fun m f => max m ((idx_of_file cls f).getD 0)) a := by
  induction l generalizing a with
  | nil => exact Nat.le_refl a
  | cons f l ih => exact Nat.le_trans (Nat.le_max_left _ _) (ih _)

theorem idxFold_mem_le (cls : String) (l : List String) (a : Nat) (f : String) (hf : f ∈ l) :
    (idx_of_file cls f).getD 0 ≤ l.foldl (fun m g => max m ((idx_of_file cls g).getD 0)) a := by
  induction l generalizing a with
  | nil => cases hf
  | cons g l ih =>
    rcases List.mem_cons.mp hf with h | h
    · subst h
      exact Nat.le_trans (Nat.le_max_right _ _) (idxFold_init_le cls l _)
    · exact ih _ h

theorem idxFold_attained (cls : String) (l : List String) (a : Nat) :
    l.foldl (fun m g => max m ((idx_of_file cls g).getD 0)) a = a ∨
      ∃ f ∈ l, l.foldl (fun m g => max m ((idx_of_file cls g).getD 0)) a
        = (idx_of_file cls f).getD 0 := by
  induction l generalizing a with
  | nil => left; rfl
  | cons g l ih =>
    rcases ih (max a ((idx_of_file cls g).getD 0)) with h | ⟨f, hf, h⟩
    · rw [List.foldl_cons, h]
      by_cases hc : (idx_of_file cls g).getD 0 ≤ a
      · left
        exact Nat.max_eq_left hc
      · right
        exact ⟨g, by simp, Nat.max_eq_right (by omega)⟩
    · right
      exact ⟨f, List.mem_cons_of_mem _ hf, by rw [List.foldl_cons]; exact h⟩

theorem natDigits_lt10 {n : Nat} (h : n < 10) : natDigits n = [Nat.digitChar n] := by
  rw [natDigits]
  simp [h]

/-! ### Claim theorems -/

/-- C3 counterexample: the claim quantifies over every class name, but for
the class name "x1" (which contains the digit '1', not matched by the
`[a-z_]` group of `IDX_RE`) the function does not return 1 plus the
largest index: with files `x1_1.biom .. x1_5.biom` present it returns 1,
not 6; and it is not monotonic: on the empty directory it returns 1, yet
after committing the file with that index (`x1_1.biom`, the exact name
`harvest_class` would write) it still returns 1, not 2. -/
theorem next_index_for_class_cex :
    next_index_for_class ["x1_1.biom", "x1_2.biom", "x1_3.biom", "x1_4.biom", "x1_5.biom"]
        "x1" = 1
      ∧ next_index_for_class [] "x1" = 1
      ∧ out_name_for "x1" (next_index_for_class [] "x1") = "x1_1.biom"
      ∧ next_index_for_class ["x1_1.biom"] "x1" = 1 := by
  refine ⟨by decide, by decide, ?_, by decide⟩
  have h1 : next_index_for_class [] "x1" = 1 := by decide
  rw [h1, out_name_for, natDigits_lt10 (by omega)]
  decide

/-- C3 (amended to class names consisting of ASCII letters and
underscores): `next_index_for_class` returns 1 on an empty directory;
every index parsed from a matching file is strictly below the returned
value; the returned value is 1 or one more than an index realized by
some file (so it is exactly 1 plus the largest matching index);
recomputation without a commit returns the same value (idempotence); for
a class name made of ASCII letters/underscores, committing the file
`<class>_<returned index>.biom` makes the next call return one more
(monotonicity); and concretely files `{class}_1..{class}_5` give 6, and
after one more commit 7. -/
theorem next_index_for_class_spec :
    (∀ cls : String, next_index_for_class [] cls = 1)
      ∧ (∀ (files : List String) (cls f : String) (n : Nat),
          f ∈ files → idx_of_file cls f = some n → n < next_index_for_class files cls)
      ∧ (∀ (files : List String) (cls : String),
          next_index_for_class files cls = 1 ∨
            ∃ f ∈ files, idx_of_file cls f = some (next_index_for_class files cls - 1))
      ∧ (∀ (files : List String) (cls : String),
          next_index_for_class files cls = next_index_for_class files cls)
      ∧ (∀ (files : List String) (cls : String), cls.data ≠ [] →
          (∀ c ∈ cls.data, isClsChar c = true) →
          next_index_for_class (files ++ [out_name_for cls (next_index_for_class files cls)]) cls
            = next_index_for_class files cls + 1)
      ∧ next_index_for_class ["forest_1.biom", "forest_2.biom", "forest_3.biom",
          "forest_4.biom", "forest_5.biom"] "forest" = 6
      ∧ next_index_for_class ["forest_1.biom", "forest_2.biom", "forest_3.biom",
          "forest_4.biom", "forest_5.biom", "forest_6.biom"] "forest" = 7 := by
  refine ⟨fun cls => rfl, ?_, ?_, fun _ _ => rfl, ?_, by decide, by decide⟩
  · intro files cls f n hf hidx
    have := idxFold_mem_le cls files 0 f hf
    rw [hidx] at this
    simp only [Option.getD_some] at this
    unfold next_index_for_class idxFold
    omega
  · intro files cls
    rcases idxFold_attained cls files 0 with h | ⟨f, hf, h⟩
    · left
      unfold next_index_for_class idxFold
      omega
    · cases hidx : idx_of_file cls f with
      | none =>
        left
        rw [hidx] at h
        unfold next_index_for_class idxFold
        simp only [Option.getD_none] at h
        omega
      | some k =>
        right
        refine ⟨f, hf, ?_⟩
        rw [hidx] at h ⊢
        unfold next_index_for_class idxFold
        simp only [Option.getD_some] at h
        rw [h]
        simp
  · intro files cls h1 h2
    have hidx : idx_of_file cls (out_name_for cls (next_index_for_class files cls))
        = some (next_index_for_class files cls) :=
      idx_of_file_out_name cls h1 h2 _
    have key : idxFold cls (files ++ [out_name_for cls (next_index_for_class files cls)])
        = next_index_for_class files cls := by
      unfold idxFold
      rw [List.foldl_append, List.foldl_cons, List.foldl_nil, hidx]
      simp only [Option.getD_some]
      have hN : next_index_for_class files cls
          = List.foldl (fun m f => max m ((idx_of_file cls f).getD 0)) 0 files + 1 := rfl
      omega
    show idxFold cls (files ++ [out_name_for cls (next_index_for_class files cls)]) + 1 = _
    rw [key]

/-- C3 witness: monotonicity instantiated at class "forest" with files
`forest_1.biom .. forest_5.biom`. -/
theorem next_index_for_class_spec_witness :
    ("forest" : String).data ≠ []
      ∧ (∀ c ∈ ("forest" : String).data, isClsChar c = true)
      ∧ next_index_for_class (["forest_1.biom", "forest_2.biom", "forest_3.biom",
          "forest_4.biom", "forest_5.biom"] ++
            [out_name_for "forest" (next_index_for_class ["forest_1.biom", "forest_2.biom",
              "forest_3.biom", "forest_4.biom", "forest_5.biom"] "forest")]) "forest"
          = next_index_for_class ["forest_1.biom", "forest_2.biom", "forest_3.biom",
              "forest_4.biom", "forest_5.biom"] "forest" + 1 :=
  ⟨by decide, by decide,
    next_index_for_class_spec.2.2.2.2.1 _ "forest" (by decide) (by decide)⟩

/-- C9: at resume the saved count `harvest_class` starts from is
`next_index_for_class - 1` — the maximum index occurring in matching
filenames, not the number of files: with only `forest_1.biom` and
`forest_5.biom` on disk the computed saved count is 5 while only 2 files
exist, and with target 4 the class is declared complete immediately
(returning saved count 5 and performing no network phase) although fewer
than 4 files are on disk. -/
theorem resume_saved_equals_max_index :
    (∀ (files : List String) (cls : String) (t : Nat),
        (harvest_resume files cls t).1 = next_index_for_class files cls - 1)
      ∧ next_index_for_class ["forest_1.biom", "forest_5.biom"] "forest" - 1 = 5
      ∧ (["forest_1.biom", "forest_5.biom"] : List String).length = 2
      ∧ (∀ networkPhase : Nat → Nat → Nat × Nat,
          harvest_class ["forest_1.biom", "forest_5.biom"] "forest" 4 networkPhase = (5, 0)) := by
  refine ⟨fun files cls t => rfl, by decide, by decide, ?_⟩
  intro phase
  have hr : harvest_resume ["forest_1.biom", "forest_5.biom"] "forest" 4 = (5, 6, 0) := by
    decide
  simp [harvest_class, hr]

/-- C10: the `IDX_RE` pattern only ever recovers class groups made of
ASCII letters and underscores, so for a class name containing any other
ASCII character no filename matches: `idx_of_file` is `none` for every
filename, `next_index_for_class` is 1 for every directory listing, and
the resume saved count is 0 no matter how many output files exist. -/
theorem invalid_class_name_next_index (cls : String)
    (h : ∃ c ∈ cls.data, c.toNat < 128 ∧ isClsChar c = false) :
    (∀ fname : String, idx_of_file cls fname = none)
      ∧ (∀ files : List String, next_index_for_class files cls = 1)
      ∧ (∀ (files : List String) (t : Nat), (harvest_resume files cls t).1 = 0) := by
  obtain ⟨c, hc, _, hb⟩ := h
  have key : ∀ fname, idx_of_file cls fname = none :=
    fun f => idx_of_file_invalid hc hb f
  have hnext : ∀ files : List String, next_index_for_class files cls = 1 := by
    intro files
    unfold next_index_for_class
    rw [idxFold_all_none (fun f _ => key f)]
  refine ⟨key, hnext, ?_⟩
  intro files t
  show next_index_for_class files cls - 1 = 0
  rw [hnext files]

/-- C10 witness: class "x-ray" (hyphen) with five pattern-named files on
disk still resumes from index 1 / saved count 0. -/
theorem invalid_class_name_next_index_witness :
    (∃ c ∈ ("x-ray" : String).data, c.toNat < 128 ∧ isClsChar c = false)
      ∧ next_index_for_class ["x-ray_1.biom", "x-ray_2.biom", "x-ray_3.biom"] "x-ray" = 1
      ∧ (harvest_resume ["x-ray_1.biom", "x-ray_2.biom", "x-ray_3.biom"] "x-ray" 100).1 = 0 :=
  ⟨by decide,
    (invalid_class_name_next_index "x-ray" (by decide)).2.1 _,
    (invalid_class_name_next_index "x-ray" (by decide)).2.2 _ _⟩

/-- C6: when the saved count recovered from existing filenames already
meets the target, `harvest_class` returns that count at once with zero
network requests, whatever the network phase would have done. -/
theorem resume_complete_no_network (files : List String) (cls : String) (target : Nat)
    (networkPhase : Nat → Nat → Nat × Nat)
    (h : target ≤ next_index_for_class files cls - 1) :
    harvest_class files cls target networkPhase = (next_index_for_class files cls - 1, 0) := by
  simp [harvest_class, harvest_resume, Nat.sub_eq_zero_of_le h]

/-- C6 witness: a directory holding `forest_1.biom`, `forest_2.biom`
with target 2 returns (2, 0) regardless of the network oracle. -/
theorem resume_complete_no_network_witness :
    2 ≤ next_index_for_class ["forest_1.biom", "forest_2.biom"] "forest" - 1
      ∧ harvest_class ["forest_1.biom", "forest_2.biom"] "forest" 2
          (fun a _ => (a + 99, 77)) = (next_index_for_class ["forest_1.biom",
            "forest_2.biom"] "forest" - 1, 0) :=
  ⟨by decide,
    resume_complete_no_network ["forest_1.biom", "forest_2.biom"] "forest" 2
      (fun a _ => (a + 99, 77)) (by decide)⟩

theorem get_json_aux_congr {α : Type} (f g : Nat → Resp α) :
    ∀ (fuel a : Nat) (sleeps : List Nat), (∀ i, a ≤ i → i < a + fuel → f i = g i) →
      get_json_aux f a fuel sleeps = get_json_aux g a fuel sleeps := by
  intro fuel
  induction fuel with
  | zero => intro a sleeps _; rfl
  | succ n ih =>
    intro a sleeps h
    simp only [get_json_aux]
    rw [h a (Nat.le_refl a) (by omega)]
    cases g a with
    | ok v => rfl
    | code429 => exact ih (a + 1) _ (fun i hi1 hi2 => h i (by omega) (by omega))
    | err =>
      by_cases hn : n = 0
      · simp [hn]
      · simp only [if_neg hn]
        exact ih (a + 1) _ (fun i hi1 hi2 => h i (by omega) (by omega))

theorem mem_addSeen (l : List String) (x : String) : x ∈ addSeen l x := by
  unfold addSeen
  split
  · assumption
  · exact List.mem_cons_self x l

/-- C1: in both candidate paths (direct `.biom` download, and `.tsv`
download followed by conversion), when the freshly downloaded file's
computed content signature is already present in the state's signature
map, the step deletes the downloaded file (the committed-files list is
unchanged), adds the candidate link to `seen_links`, and leaves both the
saved count and the next output index unchanged — no output file is
committed. -/
theorem duplicate_download_step {β : Type} (class_name : String)
    (download : String → Option β) (convert : β → Except Unit (Option β))
    (sig : β → Option String) (st : HState) (disk : List String) (saved next_idx : Nat) :
    (∀ (u : String) (t : Option String) (c : β) (s name : String),
        u ∉ st.seen_links → download u = some c → sig c = some s →
        lookupName st.biom_sig_to_name s = some name →
        processCandidate class_name download convert sig st disk saved next_idx (some u) t
            = Except.ok ⟨{ st with seen_links := addSeen st.seen_links u },
                disk, saved, next_idx, Outcome.duplicate⟩
          ∧ u ∈ addSeen st.seen_links u)
      ∧ (∀ (u : String) (c b : β) (s name : String),
        u ∉ st.seen_links → download u = some c → convert c = Except.ok (some b) →
        sig b = some s → lookupName st.biom_sig_to_name s = some name →
        processCandidate class_name download convert sig st disk saved next_idx none (some u)
            = Except.ok ⟨{ st with seen_links := addSeen st.seen_links u },
                disk, saved, next_idx, Outcome.duplicate⟩
          ∧ u ∈ addSeen st.seen_links u) := by
  constructor
  · intro u t c s name hnotin hdl hsig hlk
    refine ⟨?_, mem_addSeen _ _⟩
    simp [processCandidate, hnotin, hdl, hsig, hlk]
  · intro u c b s name hnotin hdl hconv hsig hlk
    refine ⟨?_, mem_addSeen _ _⟩
    simp [processCandidate, hnotin, hdl, hconv, hsig, hlk]

/-- C1 witness: a duplicate direct `.biom` download at a concrete input. -/
theorem duplicate_download_step_witness :
    ("u1" : String) ∉ (⟨[], [], [("s1", "f1.biom")]⟩ : HState).seen_links
      ∧ (processCandidate "forest" (fun _ => some (0 : Nat)) (fun _ => Except.ok none)
            (fun _ => some "s1") ⟨[], [], [("s1", "f1.biom")]⟩ ["f1.biom"] 1 2 (some "u1") none
              = Except.ok ⟨⟨addSeen [] "u1", [], [("s1", "f1.biom")]⟩,
                  ["f1.biom"], 1, 2, Outcome.duplicate⟩
          ∧ "u1" ∈ addSeen ([] : List String) "u1") :=
  ⟨by decide,
    (duplicate_download_step "forest" (fun _ => some (0 : Nat)) (fun _ => Except.ok none)
        (fun _ => some "s1") ⟨[], [], [("s1", "f1.biom")]⟩ ["f1.biom"] 1 2).1
      "u1" none 0 "s1" "f1.biom" (by decide) rfl rfl (by decide)⟩

/-- C4 counterexample: a candidate whose TSV→BIOM conversion fails via
the library fallback (`convert_tsv_to_biom` returns `False`) is passed
over WITHOUT its link being added to `seen_links`: the state is
completely unchanged, so the link is not marked seen and may be
retried, contradicting the claim. -/
theorem conversion_failure_cex :
    processCandidate "forest" (fun _ => some (0 : Nat)) (fun _ => Except.ok none)
        (fun _ => none) emptyState [] 0 1 none (some "u1")
        = Except.ok ⟨emptyState, [], 0, 1, Outcome.convFailed⟩
      ∧ ("u1" : String) ∉ (emptyState).seen_links := by
  exact ⟨rfl, by decide⟩

/-- C4 (amended): when TSV→BIOM conversion fails through the library
fallback (`convert_tsv_to_biom` returns `False`), `harvest_class`
commits no output file, leaves the state — including `seen_links` —
entirely unchanged, and moves on to the next candidate without aborting
the class; the failed link is NOT recorded as seen (it may be retried).
When instead the conversion CLI raises (`subprocess.check_call`), the
exception propagates out of the per-candidate body, aborting the class
(it is caught per-class by `main`). -/
theorem conversion_failure_step {β : Type} (class_name : String)
    (download : String → Option β) (convert : β → Except Unit (Option β))
    (sig : β → Option String) (st : HState) (disk : List String) (saved next_idx : Nat) :
    (∀ (u : String) (c : β), u ∉ st.seen_links → download u = some c →
        convert c = Except.ok none →
        processCandidate class_name download convert sig st disk saved next_idx none (some u)
          = Except.ok ⟨st, disk, saved, next_idx, Outcome.convFailed⟩)
      ∧ (∀ (u : String) (c : β), u ∉ st.seen_links → download u = some c →
        convert c = Except.error () →
        processCandidate class_name download convert sig st disk saved next_idx none (some u)
          = Except.error ()) := by
  constructor
  · intro u c hnotin hdl hconv
    simp [processCandidate, hnotin, hdl, hconv]
  · intro u c hnotin hdl hconv
    simp [processCandidate, hnotin, hdl, hconv]

/-- C4 witness: the fallback-failure branch at a concrete input. -/
theorem conversion_failure_step_witness :
    ("u2" : String) ∉ (⟨["u9"], [], []⟩ : HState).seen_links
      ∧ processCandidate "forest" (fun _ => some (7 : Nat)) (fun _ => Except.ok none)
          (fun _ => some "s1") ⟨["u9"], [], []⟩ [] 0 1 none (some "u2")
        = Except.ok ⟨⟨["u9"], [], []⟩, [], 0, 1, Outcome.convFailed⟩ :=
  ⟨by decide,
    (conversion_failure_step "forest" (fun _ => some (7 : Nat)) (fun _ => Except.ok none)
        (fun _ => some "s1") ⟨["u9"], [], []⟩ [] 0 1).1 "u2" 7 (by decide) rfl rfl⟩

/-- C5 counterexample: when all five attempts return HTTP 429, the loop
consumes its whole budget through the `continue` branch (sleeping
3,4,5,6,7 seconds) and then falls off the end of the function,
returning Python `None` — not raising and not returning an error. -/
theorem get_json_all_429_cex :
    get_json (fun _ => (Resp.code429 : Resp Nat)) 5 = (Except.ok none, [3, 4, 5, 6, 7])
      ∧ (get_json (fun _ => (Resp.code429 : Resp Nat)) 5).1 ≠ Except.error () := by
  constructor
  · rfl
  · rw [show (get_json (fun _ => (Resp.code429 : Resp Nat)) 5).1 = Except.ok none from rfl]
    simp

/-- C5 (amended): `get_json` consults at most `retries` attempts (its
result and sleep trace depend only on attempts `0..retries-1`), a 429
consumes the same attempt counter as any other failure with backoff
`3 + attempt` seconds; and when every attempt fails it never returns a
JSON value: it raises when the final attempt fails with a non-429
error, but returns `None` when the final attempt is a 429. -/
theorem get_json_retry_policy :
    (∀ (α : Type) (f g : Nat → Resp α) (r : Nat), (∀ a, a < r → f a = g a) →
        get_json f r = get_json g r)
      ∧ (∀ (α : Type) (f : Nat → Resp α),
          (∀ a, a < 5 → f a = Resp.code429 ∨ f a = Resp.err) →
          (f 4 = Resp.code429 → (get_json f 5).1 = Except.ok none)
            ∧ (f 4 = Resp.err → (get_json f 5).1 = Except.error ())) := by
  constructor
  · intro α f g r h
    exact get_json_aux_congr f g r 0 [] (fun i _ h2 => h i (by omega))
  · intro α f hf
    have h0 := hf 0 (by omega)
    have h1 := hf 1 (by omega)
    have h2 := hf 2 (by omega)
    have h3 := hf 3 (by omega)
    constructor
    · intro h4
      rcases h0 with h0 | h0 <;> rcases h1 with h1 | h1 <;> rcases h2 with h2 | h2 <;>
        rcases h3 with h3 | h3 <;>
        simp [get_json, get_json_aux, h0, h1, h2, h3, h4]
    · intro h4
      rcases h0 with h0 | h0 <;> rcases h1 with h1 | h1 <;> rcases h2 with h2 | h2 <;>
        rcases h3 with h3 | h3 <;>
        simp [get_json, get_json_aux, h0, h1, h2, h3, h4]

/-- C5 witness: five transport errors raise; the congruence part applied
at a pair of oracles agreeing on the five consulted attempts. -/
theorem get_json_retry_policy_witness :
    (get_json (fun _ => (Resp.err : Resp Nat)) 5).1 = Except.error ()
      ∧ get_json (fun _ => (Resp.err : Resp Nat)) 5
          = get_json (fun a => if a < 5 then Resp.err else (Resp.ok 0 : Resp Nat)) 5 :=
  ⟨(get_json_retry_policy.2 Nat (fun _ => Resp.err) (fun _ _ => Or.inr rfl)).2 rfl,
    get_json_retry_policy.1 Nat (fun _ => Resp.err)
      (fun a => if a < 5 then Resp.err else Resp.ok 0) 5
      (fun a ha => by simp [ha])⟩

theorem catMap_congr {α : Type} (f g : α → List Nat) (l : List α)
    (h : ∀ a ∈ l, f a = g a) : catMap f l = catMap g l := by
  induction l with
  | nil => rfl
  | cons a l ih =>
    simp only [catMap]
    rw [h a (by simp), ih (fun b hb => h b (by simp [hb]))]

theorem sortStrings_eq_of_perm {l1 l2 : List String} (h : l1.Perm l2) :
    sortStrings l1 = sortStrings l2 :=
  List.eq_of_perm_of_sorted
    ((List.perm_insertionSort _ l1).trans (h.trans (List.perm_insertionSort _ l2).symm))
    (List.sorted_insertionSort _ l1)
    (List.sorted_insertionSort _ l2)

theorem mem_sortStrings {l : List String} {x : String} (h : x ∈ sortStrings l) : x ∈ l :=
  (List.perm_insertionSort _ l).mem_iff.mp h

theorem mem_sortStrings_of_mem {l : List String} {x : String} (h : x ∈ l) : x ∈ sortStrings l :=
  (List.perm_insertionSort _ l).mem_iff.mpr h

/-- C2: the signature byte stream fed to sha256 is invariant under any
permutation of the rows and of the columns of the loaded table, provided
every cell agrees labelwise — canonicalization sorts both label lists
and reads the matrix through the sorted labels, so logically identical
tables produce identical digests. -/
theorem compute_biom_signature_perm_invariant (t1 t2 : BiomTable)
    (hr : t1.rows.Perm t2.rows) (hc : t1.cols.Perm t2.cols)
    (hv : ∀ r ∈ t1.rows, ∀ c ∈ t1.cols, t1.val r c = t2.val r c) :
    compute_biom_signature t1 = compute_biom_signature t2 := by
  simp only [compute_biom_signature]
  rw [sortStrings_eq_of_perm hr, sortStrings_eq_of_perm hc]
  have hM : catMap (fun r => catMap (fun c => int64Bytes (t1.val r c)) (sortStrings t2.cols))
      (sortStrings t2.rows)
      = catMap (fun r => catMap (fun c => int64Bytes (t2.val r c)) (sortStrings t2.cols))
        (sortStrings t2.rows) := by
    refine catMap_congr _ _ _ (fun r hrm => catMap_congr _ _ _ (fun c hcm => ?_))
    rw [hv r (hr.mem_iff.mpr (mem_sortStrings hrm)) c (hc.mem_iff.mpr (mem_sortStrings hcm))]
  rw [hM]

/-- C2 witness: two 2×2 tables with permuted rows and columns. -/
theorem compute_biom_signature_perm_invariant_witness :
    (["b", "a"] : List String).Perm ["a", "b"]
      ∧ (["x", "y"] : List String).Perm ["y", "x"]
      ∧ compute_biom_signature
            ⟨["b", "a"], ["x", "y"],
              fun r c => if r = "a" then (if c = "x" then 3 else 4)
                else (if c = "x" then 5 else 6)⟩
          = compute_biom_signature
            ⟨["a", "b"], ["y", "x"],
              fun r c => if r = "a" then (if c = "x" then 3 else 4)
                else (if c = "x" then 5 else 6)⟩ :=
  ⟨by decide, by decide,
    compute_biom_signature_perm_invariant _ _ (by decide) (by decide)
      (fun r _ c _ => rfl)⟩

theorem lookupName_cons_isSome {m : List (String × String)} {s : String} (p : String × String)
    (h : (lookupName m s).isSome = true) : (lookupName (p :: m) s).isSome = true := by
  obtain ⟨a, b⟩ := p
  unfold lookupName
  split <;> simp [h]

theorem backfill_fold_mem (sig : String → Option String) (s : String) :
    ∀ (l : List String) (m : List (String × String)),
      ((∃ f ∈ l, sig f = some s) ∨ (lookupName m s).isSome = true) →
      (lookupName (l.foldl (fun m f =>
          match sig f with
          | some s2 => if (lookupName m s2).isSome then m else (s2, f) :: m
          | none => m) m) s).isSome = true := by
  intro l
  induction l with
  | nil =>
    intro m h
    rcases h with ⟨f, hf, _⟩ | h
    · cases hf
    · simpa using h
  | cons f l ih =>
    intro m h
    rw [List.foldl_cons]
    apply ih
    rcases h with ⟨g, hg, hsig⟩ | h
    · rcases List.mem_cons.mp hg with hgf | hgl
      · right
        subst hgf
        simp only [hsig]
        split
        · next hcond => exact hcond
        · simp [lookupName]
      · left
        exact ⟨g, hgl, hsig⟩
    · right
      cases hsf : sig f with
      | none => simpa [hsf] using h
      | some s2 =>
        simp only [hsf]
        split
        · exact h
        · exact lookupName_cons_isSome _ h

/-- C7: loading the state is total — a missing sidecar and a sidecar
whose contents fail to parse both yield the empty state (no exception
escapes `load_state`) — and a resumed run then backfills the signature
map from the existing output files: every matching output file whose
signature computation succeeds ends up recorded in the map. -/
theorem load_state_fallback :
    load_state none = emptyState
      ∧ (∀ e : Unit, load_state (some (Except.error e)) = emptyState)
      ∧ (∀ (cls : String) (files : List String) (sig : String → Option String) (f s : String),
          f ∈ files → matchesBackfill cls f = true → sig f = some s →
          (lookupName (backfill cls files sig (load_state none)).biom_sig_to_name s).isSome
            = true) := by
  refine ⟨rfl, fun _ => rfl, ?_⟩
  intro cls files sig f s hf hmatch hsig
  show (lookupName (backfill cls files sig emptyState).biom_sig_to_name s).isSome = true
  unfold backfill emptyState
  simp only [if_pos rfl]
  apply backfill_fold_mem
  left
  refine ⟨f, ?_, hsig⟩
  rw [List.mem_filter]
  exact ⟨mem_sortStrings_of_mem hf, hmatch⟩

/-- C7 witness: corrupt sidecar falls back to the empty state, and the
backfill then records the signature of the one existing output file. -/
theorem load_state_fallback_witness :
    load_state (some (Except.error ())) = emptyState
      ∧ matchesBackfill "forest" "forest_1.biom" = true
      ∧ (lookupName (backfill "forest" ["forest_1.biom"] (fun _ => some "sigA")
          (load_state none)).biom_sig_to_name "sigA").isSome = true :=
  ⟨load_state_fallback.2.1 (),
    by decide,
    load_state_fallback.2.2 "forest" ["forest_1.biom"] (fun _ => some "sigA")
      "forest_1.biom" "sigA" (by decide) (by decide) rfl⟩

theorem find_loop_spec (items : List DlItem) :
    ∀ tu ta : Option String, (tu = none → ta = none) →
      find_loop items (tu, ta) =
        ((items.find? qualifiesBiom).bind DlItem.self_link,
         (items.find? qualifiesBiom).map (fun it => String.mk (itemAlias it)),
         (if tu.isSome then tu
          else ((items.takeWhile (fun it => !qualifiesBiom it)).find? qualifiesTsv).bind
            DlItem.self_link),
         (if tu.isSome then ta
          else ((items.takeWhile (fun it => !qualifiesBiom it)).find? qualifiesTsv).map
            (fun it => String.mk (itemAlias it)))) := by
  induction items with
  | nil =>
    intro tu ta hta
    cases tu with
    | none => simp [find_loop, hta rfl]
    | some v => simp [find_loop]
  | cons it rest ih =>
    intro tu ta hta
    by_cases hsk : itemSkipped it = true
    · have hqb : qualifiesBiom it = false := by simp [qualifiesBiom, hsk]
      have hqt : qualifiesTsv it = false := by simp [qualifiesTsv, hsk]
      rw [show find_loop (it :: rest) (tu, ta) = find_loop rest (tu, ta) by
        simp [find_loop, hsk]]
      rw [ih tu ta hta]
      simp [List.find?, hqb, hqt, List.takeWhile_cons]
    · by_cases hb : endsBiom (itemLow it) = true
      · have hqb : qualifiesBiom it = true := by simp [qualifiesBiom, hsk, hb]
        rw [show find_loop (it :: rest) (tu, ta)
            = (it.self_link, some (String.mk (itemAlias it)), tu, ta) by
          simp [find_loop, hsk, hb]]
        simp only [List.find?, hqb, List.takeWhile_cons, Bool.not_true]
        cases tu with
        | none => simp [hta rfl]
        | some v => simp
      · have hqb : qualifiesBiom it = false := by simp [qualifiesBiom, hb]
        by_cases ht : (hasOtu (itemLow it) && endsTsv (itemLow it)) = true
        · have hqt : qualifiesTsv it = true := by
            simp only [qualifiesTsv, hsk]
            simpa using ht
          cases tu with
          | none =>
            have hlink : it.self_link.isSome = true := by
              rcases hl : it.self_link with _ | v
              · simp [itemSkipped, hl, linkFalsy] at hsk
              · rfl
            rw [show find_loop (it :: rest) (none, ta)
                = find_loop rest (it.self_link, some (String.mk (itemAlias it))) by
              simp [find_loop, hsk, hb, ht]]
            rw [ih it.self_link (some (String.mk (itemAlias it)))
              (fun hc => by rw [hc] at hlink; cases hlink)]
            simp [List.find?, hqb, hqt, List.takeWhile_cons, hlink]
          | some v =>
            rw [show find_loop (it :: rest) (some v, ta) = find_loop rest (some v, ta) by
              simp [find_loop, hsk, hb, ht]]
            rw [ih (some v) ta (fun hc => by cases hc)]
            simp [List.find?, hqb, List.takeWhile_cons]
        · have hqt : qualifiesTsv it = false := by
            simp only [qualifiesTsv, hsk]
            simpa using ht
          have hff : (hasOtu (itemLow it) && endsTsv (itemLow it)) = false := by
            simpa using ht
          rw [show find_loop (it :: rest) (tu, ta) = find_loop rest (tu, ta) by
            simp [find_loop, hsk, hb, hff]]
          rw [ih tu ta hta]
          simp [List.find?, hqb, hqt, List.takeWhile_cons]

/-- C8: `find_biom_or_tsv` skips items lacking a (non-empty, stripped)
alias or a usable self link; the binary slot is the first item, in
listing order, whose lowered alias ends with ".biom" (scanning stops
there, captured by the `takeWhile` below); the text slot is the first
item before that stop whose lowered alias contains "otu" and ends with
".tsv"; either slot is empty when no item qualifies for it. -/
theorem find_biom_or_tsv_spec (items : List DlItem) :
    find_biom_or_tsv items =
      ((items.find? qualifiesBiom).bind DlItem.self_link,
       (items.find? qualifiesBiom).map (fun it => String.mk (itemAlias it)),
       ((items.takeWhile (fun it => !qualifiesBiom it)).find? qualifiesTsv).bind
         DlItem.self_link,
       ((items.takeWhile (fun it => !qualifiesBiom it)).find? qualifiesTsv).map
         (fun it => String.mk (itemAlias it))) := by
  have h := find_loop_spec items none none (fun _ => rfl)
  simpa [find_biom_or_tsv] using h

end Mgnify
